import Mathlib

/-!
# Verification of the Aiken → QTI 2.1 converter (`aiken2qti.py`)

This file is a shallow embedding of the core of the converter:

* `AikenParser.parse_file` — the line scanner that turns Aiken text into
  validated `Question` records (embedded as `parseLines` / `parse_file`);
* `Question.__post_init__` — the construction-time validation
  (embedded as `mkQuestion`);
* `QTIGenerator.generate_item_xml`, `generate_manifest`, `_safe_title` —
  the XML renderers (embedded over an explicit XML tree type, together
  with an ElementTree-style serializer and an XML well-formedness grammar);
* `PackageBuilder.build_package` — the package assembly (embedded as a pure
  function from the question list and the streams of random identifiers to
  the list of archive entries).

Strings are modelled as `List Char` (`Str`).  Python's `str.strip` and the
`\s` character class (both Unicode-aware, both backed by CPython's
`Py_UNICODE_ISSPACE`) are modelled by the full CPython whitespace set.
The two regexes of the parser are modelled as executable matchers; they
are exact for right-stripped, newline-free lines, which is the only way
`parse_file` ever applies them (every line is `strip()`ped at read time).
Random `uuid4` values are inputs of the embedding (streams of hex strings),
since the code treats them as opaque fresh tokens.
-/

set_option autoImplicit false

namespace Aiken2QTI

/-- Strings of the embedded program, as explicit character lists. -/
abbrev Str := List Char

/-- Coerce a Lean string literal into an embedded string. -/
def S (s : String) : Str := s.data

/-- The characters `str.strip()` removes and `\s` matches: CPython's
Unicode whitespace (`Py_UNICODE_ISSPACE`): U+0009–U+000D, U+001C–U+001F,
space, NEL, NBSP, Ogham space mark, U+2000–U+200A, line and paragraph
separators, narrow no-break space, medium mathematical space, ideographic
space. -/
def isWS (c : Char) : Bool :=
  let n := c.toNat
  (9 ≤ n && n ≤ 13) || (28 ≤ n && n ≤ 32) || n = 0x85 || n = 0xA0 ||
  n = 0x1680 || (0x2000 ≤ n && n ≤ 0x200A) || n = 0x2028 || n = 0x2029 ||
  n = 0x202F || n = 0x205F || n = 0x3000

/-- Python's `line.strip()`: drop whitespace from both ends. -/
def pyStrip (s : Str) : Str :=
  ((s.dropWhile isWS).reverse.dropWhile isWS).reverse

/-- ASCII letter (`[A-Z]` under `re.IGNORECASE`). -/
def isAsciiLetter (c : Char) : Bool :=
  ('A' ≤ c && c ≤ 'Z') || ('a' ≤ c && c ≤ 'z')

/-- Uppercase normalisation of an ASCII letter (`str.upper()` on `[A-Za-z]`). -/
def upperA (c : Char) : Char :=
  if 'a' ≤ c && c ≤ 'z' then Char.ofNat (c.toNat - 32) else c

/-- Lowercase an ASCII letter, used to model case-insensitive matching. -/
def lowerA (c : Char) : Char :=
  if 'A' ≤ c && c ≤ 'Z' then Char.ofNat (c.toNat + 32) else c

/-- `AikenParser.answer_pattern = re.compile(r"^ANSWER:\s*([A-Z])$", re.IGNORECASE)`,
returning the captured letter already uppercased as at `aiken2qti.py:109`
(`answer_match.group(1).upper()`).  Exact for the stripped lines the parser
feeds it: the keyword is matched case-insensitively, then any run of
whitespace, then exactly one ASCII letter ends the line. -/
def matchAnswer (line : Str) : Option Char :=
  if (line.take 7).map lowerA = S "answer:" then
    match (line.drop 7).dropWhile isWS with
    | [c] => if isAsciiLetter c then some (upperA c) else none
    | _ => none
  else none

/-- `AikenParser.option_pattern = re.compile(r"^([A-Z])[\)\.]\s+(.+)$")`,
returning (letter, option text).  Exact for right-stripped newline-free
lines (the only lines the parser matches): a single uppercase letter, a
`)` or `.` delimiter, at least one whitespace character, and the non-empty
remainder after the whitespace run as the captured text. -/
def matchOption (line : Str) : Option (Char × Str) :=
  match line with
  | l :: d :: rest =>
    if ('A' ≤ l ∧ l ≤ 'Z') ∧ (d = ')' ∨ d = '.') then
      if rest.takeWhile isWS ≠ [] ∧ rest.dropWhile isWS ≠ [] ∧
          (rest.dropWhile isWS).contains '\n' = false then
        some (l, rest.dropWhile isWS)
      else none
    else none
  | _ => none

/-- The `Question` dataclass: text, options mapping (insertion-ordered,
modelled as an association list), correct answer letter. -/
structure Question where
  text : Str
  options : List (Char × Str)
  answer : Char
  deriving Repr, DecidableEq

/-- The keys of the options mapping. -/
def keys (m : List (Char × Str)) : List Char := m.map Prod.fst

/-- Python dict assignment `current_options[letter] = text`: overwrite in
place when the key exists (keeping its original position), else append. -/
def insertOpt (m : List (Char × Str)) (k : Char) (v : Str) : List (Char × Str) :=
  match m with
  | [] => [(k, v)]
  | (k', v') :: rest =>
    if k' = k then (k, v) :: rest else (k', v') :: insertOpt rest k v

/-- `Question.__post_init__` (aiken2qti.py:44-53) as a Boolean validity
check: non-empty stripped text, at least one option, answer among the
option keys. -/
def Question.validb (q : Question) : Bool :=
  pyStrip q.text ≠ [] && q.options ≠ [] && (keys q.options).contains q.answer

/-- The guarded constructor: `Question(...)` raises `ValueError` exactly
when `validb` fails, so construction is modelled as an `Option`. -/
def mkQuestion (text : Str) (options : List (Char × Str)) (answer : Char) :
    Option Question :=
  let q : Question := ⟨text, options, answer⟩
  if q.validb then some q else none

/-- The scanner state of `parse_file`: the accumulated question text, the
accumulated options, and the questions collected so far. -/
structure ParseState where
  text : Str
  opts : List (Char × Str)
  acc : List Question
  deriving Repr, DecidableEq

/-- The initial scanner state. -/
def initState : ParseState := ⟨[], [], []⟩

/-- One iteration of the `for line in lines` loop of `parse_file`
(aiken2qti.py:100-151).  Lines are stripped at read time
(`[line.strip() for line in f.readlines()]`); the strip is applied here,
at the start of the step, which is equivalent since `pyStrip` is
idempotent. -/
def parseStep (st : ParseState) (rawLine : Str) : ParseState :=
  let line := pyStrip rawLine
  if line = [] then st
  else
    match matchAnswer line with
    | some ans =>
      if st.text = [] then st
      else if st.opts = [] then st
      else
        match mkQuestion (pyStrip st.text) st.opts ans with
        | some q => ⟨[], [], st.acc ++ [q]⟩
        | none => ⟨[], [], st.acc⟩
    | none =>
      match matchOption line with
      | some (l, t) => { st with opts := insertOpt st.opts l t }
      | none =>
        if st.text = [] then { st with text := line }
        else { st with text := st.text ++ ' ' :: line }

/-- The whole scanning loop of `parse_file` over the list of lines,
returning the collected questions (the trailing partial state is dropped,
a warning only being logged for it at aiken2qti.py:153-155). -/
def parseLines (lines : List Str) : List Question :=
  (lines.foldl parseStep initState).acc

/-- The error outcomes of `parse_file`. -/
inductive ParseError where
  | fileNotFound
  | valueError (msg : Str)
  deriving Repr, DecidableEq

/-- `parse_file` including its file-level control flow (aiken2qti.py:77-93).
The filesystem and the stdlib codecs are external collaborators, passed in
as: whether the path exists, the result of the UTF-8 decode into stripped
lines (`none` = `UnicodeDecodeError`), and the result of the latin-1
fallback read (`Except.error` = any exception in the fallback `open`). -/
def parse_file (pathExists : Bool) (utf8Lines : Option (List Str))
    (latin1Lines : Except Str (List Str)) : Except ParseError (List Question) :=
  if !pathExists then .error .fileNotFound
  else
    match utf8Lines with
    | some lines => .ok (parseLines lines)
    | none =>
      match latin1Lines with
      | .ok lines => .ok (parseLines lines)
      | .error e => .error (.valueError e)

/-! ## QTI generation (`QTIGenerator`)

XML documents are modelled as explicit trees (`Xml`), mirroring the
`xml.etree.ElementTree` element structure built by `generate_item_xml` and
`generate_manifest`: an element's `.text` is modelled as a leading `text`
child.  `ET.tostring(root, encoding="unicode")` is modelled by
`serializeXml`, including ElementTree's exact escaping rules
(`_escape_cdata`: `&`, `<`, `>`; `_escape_attrib`: `&`, `<`, `>`, `"`,
tab/LF/CR as numeric character references) and its ` />` form for empty
elements.  The random `uuid4().hex` tokens are inputs of the embedding. -/

mutual
/-- An XML element tree (ElementTree `Element`, with `.text` as a child). -/
inductive Xml where
  | elem (tag : Str) (attrs : List (Str × Str)) (kids : Kids)
  | text (s : Str)
  deriving Repr

/-- Children of an element. -/
inductive Kids where
  | nil
  | cons (x : Xml) (xs : Kids)
  deriving Repr
end

/-- Build a `Kids` spine from a list. -/
def K : List Xml → Kids
  | [] => .nil
  | x :: xs => .cons x (K xs)

/-- Flatten a `Kids` spine back to a list. -/
def Kids.toList : Kids → List Xml
  | .nil => []
  | .cons x xs => x :: xs.toList

/-- ElementTree `_escape_cdata` on one character: `&`, `<`, `>` become
entity references, everything else is written raw. -/
def escTextChar (c : Char) : Str :=
  if c = '&' then S "&amp;"
  else if c = '<' then S "&lt;"
  else if c = '>' then S "&gt;"
  else [c]

/-- ElementTree `_escape_cdata` over a string. -/
def escText (s : Str) : Str := s.flatMap escTextChar

/-- ElementTree `_escape_attrib` on one character. -/
def escAttrChar (c : Char) : Str :=
  if c = '&' then S "&amp;"
  else if c = '<' then S "&lt;"
  else if c = '>' then S "&gt;"
  else if c = '"' then S "&quot;"
  else if c = '\t' then S "&#09;"
  else if c = '\n' then S "&#10;"
  else if c = '\r' then S "&#13;"
  else [c]

/-- ElementTree `_escape_attrib` over a string. -/
def escAttr (s : Str) : Str := s.flatMap escAttrChar

/-- One serialized attribute: ` name="escaped-value"`. -/
def serializeAttr (p : Str × Str) : Str :=
  ' ' :: p.1 ++ '=' :: '"' :: escAttr p.2 ++ ['"']

/-- The serialized attribute list, in insertion order. -/
def serializeAttrs (attrs : List (Str × Str)) : Str :=
  attrs.flatMap serializeAttr

mutual
/-- `ET.tostring(·, encoding="unicode")`: empty elements are written
`<tag attrs />`, others `<tag attrs>children</tag>`. -/
def serializeXml : Xml → Str
  | .text s => escText s
  | .elem tag attrs .nil =>
      '<' :: (tag ++ serializeAttrs attrs ++ [' ', '/', '>'])
  | .elem tag attrs (.cons x xs) =>
      '<' :: (tag ++ serializeAttrs attrs ++ '>' ::
        (serializeKids (.cons x xs) ++ '<' :: '/' :: tag ++ ['>']))

/-- Serialize a list of children in order. -/
def serializeKids : Kids → Str
  | .nil => []
  | .cons x xs => serializeXml x ++ serializeKids xs
end

/-- `QTIGenerator.qti_ns`. -/
def qtiNs : Str := S "http://www.imsglobal.org/xsd/imsqti_v2p1"

/-- `QTIGenerator.imscp_ns`. -/
def imscpNs : Str := S "http://www.imsglobal.org/xsd/imscp_v1p1"

/-- `QTIGenerator._safe_title` (aiken2qti.py:261-267): drop the characters
`<`, `>`, `&`, `"`, truncate with a `...` suffix past `maxLength`, fall
back to the fixed placeholder when empty. -/
def safe_title (text : Str) (maxLength : Nat := 50) : Str :=
  let safe := text.filter fun c => !(c = '<' || c = '>' || c = '&' || c = '"')
  let safe := if maxLength < safe.length then safe.take maxLength ++ S "..." else safe
  if safe = [] then S "Pregunta sin título" else safe

/-- The synthetic choice identifier `f"Choice_{letter}_{uuid4().hex[:8]}"`,
with the random 8-hex suffix supplied by `choiceHex`. -/
def optionId (choiceHex : Char → Str) (letter : Char) : Str :=
  S "Choice_" ++ letter :: '_' :: choiceHex letter

/-- Insert a character into a sorted list (ascending code points). -/
def insertSorted (c : Char) : List Char → List Char
  | [] => [c]
  | d :: ds => if c ≤ d then c :: d :: ds else d :: insertSorted c ds

/-- Python `sorted` on the option letters. -/
def sortChars (l : List Char) : List Char := l.foldr insertSorted []

/-- `question.options[letter]` (total lookup; the call sites only use
letters present in the mapping). -/
def lookupD (m : List (Char × Str)) (k : Char) : Str :=
  (List.lookup k m).getD []

/-- `QTIGenerator.generate_item_xml` (aiken2qti.py:168-259) as the element
tree handed to `ET.tostring`.  `itemId` is the caller-supplied identifier
and `choiceHex` the stream of random 8-hex suffixes for the per-letter
choice identifiers. -/
def generate_item_xml (q : Question) (itemId : Str) (choiceHex : Char → Str) : Xml :=
  .elem (S "assessmentItem")
    [(S "xmlns", qtiNs),
     (S "xmlns:xsi", S "http://www.w3.org/2001/XMLSchema-instance"),
     (S "xsi:schemaLocation", qtiNs ++ ' ' :: (qtiNs ++ S ".xsd")),
     (S "identifier", itemId),
     (S "title", safe_title q.text),
     (S "adaptive", S "false"),
     (S "timeDependent", S "false")]
    (K [
      .elem (S "responseDeclaration")
        [(S "identifier", S "RESPONSE"),
         (S "cardinality", S "single"),
         (S "baseType", S "identifier")]
        (K [.elem (S "correctResponse") []
          (K (if (keys q.options).contains q.answer then
                [.elem (S "value") [] (K [.text (optionId choiceHex q.answer)])]
              else []))]),
      .elem (S "outcomeDeclaration")
        [(S "identifier", S "SCORE"),
         (S "cardinality", S "single"),
         (S "baseType", S "float")]
        (K [.elem (S "defaultValue") []
          (K [.elem (S "value") [] (K [.text (S "0")])])]),
      .elem (S "itemBody") []
        (K [.elem (S "div") [] (K [.elem (S "p") [] (K [.text q.text])]),
            .elem (S "choiceInteraction")
              [(S "responseIdentifier", S "RESPONSE"),
               (S "shuffle", S "true"),
               (S "maxChoices", S "1")]
              (K (.elem (S "prompt") []
                    (K [.text (S "Selecciona la respuesta correcta:")]) ::
                  (sortChars (keys q.options)).map fun l =>
                    .elem (S "simpleChoice")
                      [(S "identifier", optionId choiceHex l)]
                      (K [.text (lookupD q.options l)])))]),
      .elem (S "responseProcessing")
        [(S "template",
          S "http://www.imsglobal.org/question/qti_v2p1/rptemplates/match_correct")]
        (K [])])

/-- `QTIGenerator.generate_manifest` (aiken2qti.py:279-336) as the element
tree, from the `(id, filename)` resource list and the random manifest hex. -/
def generate_manifest (resources : List (Str × Str)) (manifestHex : Str) : Xml :=
  .elem (S "manifest")
    [(S "xmlns", imscpNs),
     (S "xmlns:imsmd", S "http://www.imsglobal.org/xsd/imsmd_v1p2"),
     (S "xmlns:imsqti", qtiNs),
     (S "identifier", S "MANIFEST-" ++ manifestHex),
     (S "version", S "1.0")]
    (K [
      .elem (S "metadata") []
        (K [.elem (S "schema") [] (K [.text (S "IMS Content")]),
            .elem (S "schemaversion") [] (K [.text (S "1.1.3")]),
            .elem (S "imsmd:lom") []
              (K [.elem (S "imsmd:general") []
                (K [.elem (S "imsmd:title") []
                  (K [.elem (S "imsmd:langstring") [(S "xml:lang", S "es")]
                    (K [.text (S "Cuestionario Aiken2QTI")])])])])]),
      .elem (S "organizations") [] (K []),
      .elem (S "resources") []
        (K (resources.map fun p =>
          .elem (S "resource")
            [(S "identifier", S "RES-" ++ p.1),
             (S "type", S "imsqti_item_xmlv2p1"),
             (S "href", p.2)]
            (K [.elem (S "file") [(S "href", p.2)] (K [])])))])

/-! ## Package assembly (`PackageBuilder.build_package`)

`build_package` (aiken2qti.py:346-396) writes one XML file per question
plus `imsmanifest.xml` into a staging directory and zips them.  The
embedding is the pure content of that archive: the ordered list of
`(filename, document)` pairs written by the loop, with the streams of
random `uuid4().hex` values as inputs. -/

/-- `f"{index:03d}"`: decimal digits zero-padded to at least 3 places. -/
def pad3 (n : Nat) : Str :=
  let ds := Nat.toDigits 10 n
  List.replicate (3 - ds.length) '0' ++ ds

/-- `item_id = f"ITEM_{uuid.uuid4().hex}"` for the `i`-th question
(0-based), with the hex value supplied by `uuidHex`. -/
def itemIdOf (uuidHex : Nat → Str) (i : Nat) : Str :=
  S "ITEM_" ++ uuidHex i

/-- `filename = f"question_{index:03d}_{item_id}.xml"`, where
`enumerate(questions, 1)` makes `index = i + 1` for 0-based `i`. -/
def questionFileName (uuidHex : Nat → Str) (i : Nat) : Str :=
  S "question_" ++ pad3 (i + 1) ++ '_' :: (itemIdOf uuidHex i ++ S ".xml")

/-- The `resources` list accumulated by the loop: `(item_id, filename)`
per question, in order. -/
def buildResources (numQuestions : Nat) (uuidHex : Nat → Str) : List (Str × Str) :=
  (List.range numQuestions).map fun i => (itemIdOf uuidHex i, questionFileName uuidHex i)

/-- The archive contents produced by `build_package`: the question files
in loop order followed by `imsmanifest.xml`. -/
def build_package (qs : List Question) (uuidHex : Nat → Str)
    (choiceHex : Nat → Char → Str) (manifestHex : Str) : List (Str × Xml) :=
  (qs.enum.map fun p =>
    (questionFileName uuidHex p.1,
     generate_item_xml p.2 (itemIdOf uuidHex p.1) (choiceHex p.1)))
  ++ [(S "imsmanifest.xml",
       generate_manifest (buildResources qs.length uuidHex) manifestHex)]

/-- Find the first element child with the given tag. -/
def Kids.findTag (tag : Str) : Kids → Option Xml
  | .nil => none
  | .cons x xs =>
    match x with
    | .elem t _ _ => if t = tag then some x else Kids.findTag tag xs
    | .text _ => Kids.findTag tag xs

/-- Find the first child element of `x` with the given tag. -/
def Xml.child (x : Xml) (tag : Str) : Option Xml :=
  match x with
  | .elem _ _ kids => kids.findTag tag
  | .text _ => none

/-- The text content of an element (its leading text child). -/
def Xml.textContent : Xml → Option Str
  | .elem _ _ (.cons (.text s) _) => some s
  | _ => none

/-- The text of the `correctResponse` `value` element of an assessment
item: `responseDeclaration → correctResponse → value → text`. -/
def correctResponseValue (x : Xml) : Option Str :=
  (x.child (S "responseDeclaration")).bind fun rd =>
  (rd.child (S "correctResponse")).bind fun cr =>
  (cr.child (S "value")).bind Xml.textContent

/-- The `href` attributes of the `resource` entries of a manifest, in
document order. -/
def manifestResourceHrefs (x : Xml) : List Str :=
  match x.child (S "resources") with
  | some (.elem _ _ ks) =>
      ks.toList.filterMap fun k =>
        match k with
        | .elem t attrs _ =>
          if t = S "resource" then List.lookup (S "href") attrs else none
        | .text _ => none
  | _ => []

/-! ## An XML well-formedness grammar

`generate_item_xml` serializes its tree and immediately re-parses it with
`minidom.parseString` (aiken2qti.py:257-259), which enforces XML 1.0
well-formedness — in particular the `Char` production, which forbids
control characters below `U+0020` other than tab, LF, CR, and forbids
`U+FFFE`/`U+FFFF`.  `Wf true s` is a grammar for well-formed XML element
strings (a sound subset of XML 1.0: matched tags, quoted attributes, the
standard entity and numeric references ElementTree emits, and only
XML-valid characters); `Wf false s` is the corresponding content
production. -/

/-- A character admitted by the XML 1.0 `Char` production (Lean `Char`
already excludes surrogates). -/
def okChar (c : Char) : Bool :=
  (c = '\t' || c = '\n' || c = '\r' || ' ' ≤ c)
    && c.val ≠ 0xFFFE && c.val ≠ 0xFFFF

/-- A name-start character (ASCII subset of the XML `NameStartChar`). -/
def nameStartChar (c : Char) : Bool := c.isAlpha || c = '_' || c = ':'

/-- A name character (ASCII subset of the XML `NameChar`). -/
def nameChar (c : Char) : Bool :=
  nameStartChar c || c.isDigit || c = '-' || c = '.'

/-- A well-formed XML name. -/
def wfName (s : Str) : Bool :=
  match s with
  | [] => false
  | c :: rest => nameStartChar c && rest.all nameChar

/-- The entity and character references ElementTree's escaping emits. -/
def xmlEntities : List Str :=
  [S "&amp;", S "&lt;", S "&gt;", S "&quot;", S "&#09;", S "&#10;", S "&#13;"]

/-- A character that may appear raw in text content. -/
def textSafeChar (c : Char) : Bool :=
  okChar c && !(c = '<' || c = '&' || c = '>')

/-- A character that may appear raw inside a double-quoted attribute
value. -/
def attrSafeChar (c : Char) : Bool :=
  okChar c && !(c = '<' || c = '&' || c = '>' || c = '"')

/-- Well-formed attribute value content (between the double quotes). -/
inductive WfAttrVal : Str → Prop where
  | nil : WfAttrVal []
  | chr : ∀ (c : Char) (rest : Str), attrSafeChar c = true → WfAttrVal rest →
      WfAttrVal (c :: rest)
  | ent : ∀ (e rest : Str), e ∈ xmlEntities → WfAttrVal rest →
      WfAttrVal (e ++ rest)

/-- A well-formed serialized attribute list: zero or more
` name="value"` groups. -/
inductive WfAttrList : Str → Prop where
  | nil : WfAttrList []
  | cons : ∀ (n v rest : Str), wfName n = true → WfAttrVal v → WfAttrList rest →
      WfAttrList (' ' :: n ++ '=' :: '"' :: v ++ '"' :: rest)

/-- Well-formed XML strings: `Wf true s` — `s` is one well-formed element;
`Wf false s` — `s` is well-formed element content (a sequence of elements,
raw safe characters and references). -/
inductive Wf : Bool → Str → Prop where
  | cnil : Wf false []
  | celem : ∀ (s t : Str), Wf true s → Wf false t → Wf false (s ++ t)
  | cchr : ∀ (c : Char) (t : Str), textSafeChar c = true → Wf false t →
      Wf false (c :: t)
  | cent : ∀ (e t : Str), e ∈ xmlEntities → Wf false t → Wf false (e ++ t)
  | elem : ∀ (tag attrs body : Str), wfName tag = true → WfAttrList attrs →
      Wf false body →
      Wf true ('<' :: tag ++ attrs ++ '>' :: (body ++ '<' :: '/' :: tag ++ ['>']))
  | selfc : ∀ (tag attrs : Str), wfName tag = true → WfAttrList attrs →
      Wf true ('<' :: tag ++ attrs ++ [' ', '/', '>'])

/-- `s` parses as a well-formed XML element. -/
def wellFormedXml (s : Str) : Prop := Wf true s

/-- Pairwise distinctness of serialized attribute names (XML forbids
duplicate attributes in one tag). -/
def namesDistinct : List Str → Bool
  | [] => true
  | n :: rest => !rest.contains n && namesDistinct rest

mutual
/-- Sufficient structural conditions for a tree to serialize to
well-formed XML: valid distinct names and XML-valid characters in
attribute values and text (escaping handles markup characters). -/
def goodXml : Xml → Bool
  | .text s => s.all okChar
  | .elem tag attrs kids =>
      wfName tag && attrs.all (fun p => wfName p.1 && p.2.all okChar)
        && namesDistinct (attrs.map Prod.fst) && goodKids kids

/-- `goodXml` on every child. -/
def goodKids : Kids → Bool
  | .nil => true
  | .cons x xs => goodXml x && goodKids xs
end

/-! ## Well-formed Aiken blocks

The universally quantified parsing claims range over "valid blocks" of
Aiken input.  A block is encoded by its question-text lines, its option
lines `L) text`, and its `ANSWER: L` line; the well-formedness conditions
say exactly that each line is what the spec calls it: question lines are
non-blank stripped lines that match neither pattern, option texts are
non-empty stripped single-line strings, the answer is an ASCII letter. -/

/-- Both ends of `s` are free of (ASCII) whitespace, i.e. `s` is its own
`strip()`. -/
def noWSEnds (s : Str) : Prop :=
  s.takeWhile isWS = [] ∧ s.reverse.takeWhile isWS = []

instance : DecidablePred noWSEnds := fun s => by unfold noWSEnds; infer_instance

/-- The text accumulation of the scanner: a first line is adopted as-is,
later lines are appended space-separated (aiken2qti.py:148-151). -/
def appText (t l : Str) : Str := if t = [] then l else t ++ ' ' :: l

/-- A line that the scanner treats as question text: non-blank, stripped,
matching neither the answer nor the option pattern. -/
def qlineOk (l : Str) : Prop :=
  l ≠ [] ∧ noWSEnds l ∧ matchAnswer l = none ∧ matchOption l = none

instance : DecidablePred qlineOk := fun l => by unfold qlineOk; infer_instance

/-- The option line `L) text` for the pair `(L, text)`. -/
def optLine (p : Char × Str) : Str := p.1 :: ')' :: ' ' :: p.2

/-- A well-formed option pair: uppercase letter, non-empty stripped
single-line text. -/
def optOk (p : Char × Str) : Prop :=
  ('A' ≤ p.1 ∧ p.1 ≤ 'Z') ∧ p.2 ≠ [] ∧ noWSEnds p.2 ∧ p.2.contains '\n' = false

instance : DecidablePred optOk := fun p => by unfold optOk; infer_instance

/-- The closing line `ANSWER: c`. -/
def ansLine (c : Char) : Str :=
  'A' :: 'N' :: 'S' :: 'W' :: 'E' :: 'R' :: ':' :: ' ' :: [c]

/-- One Aiken block: question lines, option lines, answer letter. -/
structure Block where
  qlines : List Str
  opts : List (Char × Str)
  ans : Char

/-- The input lines encoded by a block. -/
def Block.lines (b : Block) : List Str :=
  b.qlines ++ b.opts.map optLine ++ [ansLine b.ans]

/-- Shape-validity of a block: non-empty question text and option list,
well-formed lines, ASCII answer letter (the answer may or may not name an
existing option). -/
def Block.wf (b : Block) : Prop :=
  b.qlines ≠ [] ∧ (∀ l ∈ b.qlines, qlineOk l) ∧
  b.opts ≠ [] ∧ (∀ p ∈ b.opts, optOk p) ∧ isAsciiLetter b.ans = true

instance : DecidablePred Block.wf := fun b => by unfold Block.wf; infer_instance

/-- The options dictionary accumulated from the option lines of a block,
with Python-dict overwrite semantics. -/
def assembleOpts (ps : List (Char × Str)) : List (Char × Str) :=
  ps.foldl (fun m p => insertOpt m p.1 p.2) []

/-- The question record a well-formed block parses to (when its answer
letter names an accumulated option). -/
def Block.question (b : Block) : Question :=
  ⟨b.qlines.foldl appText [], assembleOpts b.opts, upperA b.ans⟩

/-! ## Basic lemmas: whitespace, stripping, the two matchers -/

theorem isWS_ranges {c : Char} (h : isWS c = true) :
    c.toNat ≤ 32 ∨ 133 ≤ c.toNat := by
  unfold isWS at h
  simp only [Bool.or_eq_true, Bool.and_eq_true, decide_eq_true_eq] at h
  rcases h with ((((((((((h | h) | h) | h) | h) | h) | h) | h) | h) | h) | h) <;>
    omega

theorem isWS_false_of_letter {c : Char} (h : isAsciiLetter c = true) :
    isWS c = false := by
  unfold isAsciiLetter at h
  simp only [Bool.or_eq_true, Bool.and_eq_true, decide_eq_true_eq] at h
  cases hb : isWS c
  · rfl
  · have hr := isWS_ranges hb
    rcases h with ⟨h1, h2⟩ | ⟨h1, h2⟩
    · have h1n : 65 ≤ c.toNat := h1
      have h2n : c.toNat ≤ 90 := h2
      omega
    · have h1n : 97 ≤ c.toNat := h1
      have h2n : c.toNat ≤ 122 := h2
      omega

theorem isWS_false_of_AZ {c : Char} (h1 : 'A' ≤ c) (h2 : c ≤ 'Z') :
    isWS c = false := by
  apply isWS_false_of_letter
  unfold isAsciiLetter
  simp only [Bool.or_eq_true, Bool.and_eq_true, decide_eq_true_eq]
  exact Or.inl ⟨h1, h2⟩

theorem takeWhile_nil_head {p : Char → Bool} {c : Char} {r : Str}
    (h : (c :: r).takeWhile p = []) : p c = false := by
  rw [List.takeWhile_cons] at h
  cases hb : p c
  · rfl
  · rw [hb] at h; simp at h

theorem dropWhile_eq_self_of_takeWhile_nil {p : Char → Bool} {l : Str}
    (h : l.takeWhile p = []) : l.dropWhile p = l := by
  cases l with
  | nil => rfl
  | cons c r =>
    have := takeWhile_nil_head h
    rw [List.dropWhile_cons, this]
    simp

theorem takeWhile_append_nil {p : Char → Bool} {t u : Str} (ht : t ≠ [])
    (h : t.takeWhile p = []) : (t ++ u).takeWhile p = [] := by
  cases t with
  | nil => exact absurd rfl ht
  | cons c r =>
    have := takeWhile_nil_head h
    rw [List.cons_append, List.takeWhile_cons, this]
    simp

theorem pyStrip_eq_self {s : Str} (h : noWSEnds s) : pyStrip s = s := by
  unfold pyStrip
  rw [dropWhile_eq_self_of_takeWhile_nil h.1,
      dropWhile_eq_self_of_takeWhile_nil h.2, List.reverse_reverse]

theorem matchAnswer_ansLine {c : Char} (h : isAsciiLetter c = true) :
    matchAnswer (ansLine c) = some (upperA c) := by
  have hws : isWS c = false := isWS_false_of_letter h
  unfold matchAnswer ansLine
  rw [show List.take 7 ['A', 'N', 'S', 'W', 'E', 'R', ':', ' ', c] =
        ['A', 'N', 'S', 'W', 'E', 'R', ':'] from rfl,
      if_pos (by decide),
      show List.drop 7 ['A', 'N', 'S', 'W', 'E', 'R', ':', ' ', c] = [' ', c] from rfl,
      show List.dropWhile isWS [' ', c] = List.dropWhile isWS [c] from rfl,
      List.dropWhile_cons, hws]
  simp [h]

theorem matchAnswer_optLine (p : Char × Str) : matchAnswer (optLine p) = none := by
  unfold matchAnswer optLine
  rw [if_neg]
  intro h
  have h2 : lowerA ')' = 'n' := by
    have := congrArg (fun l => l[1]?) h
    simpa [S] using this
  exact absurd h2 (by decide)

theorem matchOption_optLine {p : Char × Str} (h : optOk p) :
    matchOption (optLine p) = some p := by
  obtain ⟨⟨h1, h2⟩, h3, ⟨h4, _⟩, h5⟩ := h
  have htw : (' ' :: p.2).takeWhile isWS = [' '] := by
    rw [List.takeWhile_cons, show isWS ' ' = true from by decide, h4]
    simp
  have hdw : (' ' :: p.2).dropWhile isWS = p.2 := by
    rw [List.dropWhile_cons, show isWS ' ' = true from by decide,
        dropWhile_eq_self_of_takeWhile_nil h4]
    simp
  simp only [matchOption, optLine, htw, hdw]
  rw [if_pos ⟨⟨h1, h2⟩, Or.inl trivial⟩, if_pos ⟨by simp, h3, h5⟩]

theorem noWSEnds_optLine {p : Char × Str} (h : optOk p) : noWSEnds (optLine p) := by
  obtain ⟨⟨h1, h2⟩, h3, ⟨h4, h4r⟩, _⟩ := h
  constructor
  · rw [optLine, List.takeWhile_cons, isWS_false_of_AZ h1 h2]
    simp
  · show ((p.1 :: ')' :: ' ' :: p.2).reverse).takeWhile isWS = []
    have : (p.1 :: ')' :: ' ' :: p.2).reverse = p.2.reverse ++ [' ', ')', p.1] := by
      simp
    rw [this]
    exact takeWhile_append_nil (by simpa using h3) h4r

theorem noWSEnds_ansLine {c : Char} (h : isAsciiLetter c = true) :
    noWSEnds (ansLine c) := by
  have hws : isWS c = false := isWS_false_of_letter h
  constructor
  · rw [ansLine, List.takeWhile_cons, show isWS 'A' = false from by decide]
    simp
  · show ((ansLine c).reverse).takeWhile isWS = []
    have : (ansLine c).reverse = c :: [' ', ':', 'R', 'E', 'W', 'S', 'N', 'A'] := by
      rw [ansLine]; rfl
    rw [this, List.takeWhile_cons, hws]
    simp

/-! ## The scanner's step on each kind of line -/

theorem mkQuestion_eq_ite (t : Str) (o : List (Char × Str)) (a : Char) :
    mkQuestion t o a =
      if Question.validb ⟨t, o, a⟩ = true then some ⟨t, o, a⟩ else none := rfl

theorem mkQuestion_some {t : Str} {o : List (Char × Str)} {a : Char} {q : Question}
    (h : mkQuestion t o a = some q) : q = ⟨t, o, a⟩ ∧ q.validb = true := by
  simp only [mkQuestion] at h
  by_cases hv : Question.validb ⟨t, o, a⟩ = true
  · rw [if_pos hv] at h
    cases h
    exact ⟨rfl, hv⟩
  · rw [if_neg hv] at h
    cases h

theorem matchOption_some_ne_nil {line : Str} {l : Char} {t : Str}
    (h : matchOption line = some (l, t)) : t ≠ [] := by
  match line with
  | [] => simp [matchOption] at h
  | [c1] => simp [matchOption] at h
  | c1 :: c2 :: rest =>
    simp only [matchOption] at h
    split at h
    · split at h
      · rename_i hg
        cases h
        exact hg.2.1
      · cases h
    · cases h

theorem parseStep_qline (st : ParseState) {l : Str} (h : qlineOk l) :
    parseStep st l = { st with text := appText st.text l } := by
  obtain ⟨h1, h2, h3, h4⟩ := h
  unfold parseStep
  rw [pyStrip_eq_self h2, if_neg h1, h3, h4]
  by_cases hst : st.text = [] <;> simp [appText, hst]

theorem parseStep_optLine (st : ParseState) {p : Char × Str} (h : optOk p) :
    parseStep st (optLine p) = { st with opts := insertOpt st.opts p.1 p.2 } := by
  unfold parseStep
  rw [pyStrip_eq_self (noWSEnds_optLine h), if_neg (by simp [optLine]),
      matchAnswer_optLine, matchOption_optLine h]

theorem parseStep_ansLine (st : ParseState) {c : Char} (hc : isAsciiLetter c = true)
    (hts : noWSEnds st.text) (ht : st.text ≠ []) (ho : st.opts ≠ []) :
    parseStep st (ansLine c) =
      ⟨[], [], st.acc ++ (if (keys st.opts).contains (upperA c) then
        [⟨st.text, st.opts, upperA c⟩] else [])⟩ := by
  have hv : Question.validb ⟨st.text, st.opts, upperA c⟩ =
      (keys st.opts).contains (upperA c) := by
    unfold Question.validb
    rw [pyStrip_eq_self hts]
    simp [ht, ho]
  simp only [parseStep, pyStrip_eq_self (noWSEnds_ansLine hc), matchAnswer_ansLine hc]
  rw [if_neg (show ¬(ansLine c = []) from by simp [ansLine]), if_neg ht, if_neg ho,
      pyStrip_eq_self hts, mkQuestion_eq_ite, hv]
  by_cases hk : (keys st.opts).contains (upperA c) = true
  · simp only [if_pos hk]
  · simp only [if_neg hk]
    simp

/-! ## Folding the scanner over whole blocks -/

theorem foldl_qlines (qls : List Str) (st : ParseState) (h : ∀ l ∈ qls, qlineOk l) :
    qls.foldl parseStep st = { st with text := qls.foldl appText st.text } := by
  induction qls generalizing st with
  | nil => rfl
  | cons l ls ih =>
    rw [List.foldl_cons, List.foldl_cons, parseStep_qline st (h l (by simp)),
        ih _ (fun x hx => h x (by simp [hx]))]

theorem foldl_optLines (ps : List (Char × Str)) (st : ParseState)
    (h : ∀ p ∈ ps, optOk p) :
    (ps.map optLine).foldl parseStep st =
      { st with opts := ps.foldl (fun m p => insertOpt m p.1 p.2) st.opts } := by
  induction ps generalizing st with
  | nil => rfl
  | cons p ps ih =>
    rw [List.map_cons, List.foldl_cons, parseStep_optLine st (h p (by simp)),
        List.foldl_cons, ih _ (fun x hx => h x (by simp [hx]))]

theorem appText_ne_nil {t l : Str} (hl : l ≠ []) : appText t l ≠ [] := by
  unfold appText
  split
  · exact hl
  · simp

theorem foldl_appText_ne_nil {qls : List Str} {t : Str} (h : ∀ l ∈ qls, l ≠ [])
    (hne : t ≠ [] ∨ qls ≠ []) : qls.foldl appText t ≠ [] := by
  induction qls generalizing t with
  | nil =>
    rcases hne with hne | hne
    · exact hne
    · simp at hne
  | cons l ls ih =>
    rw [List.foldl_cons]
    exact ih (fun x hx => h x (by simp [hx]))
      (Or.inl (appText_ne_nil (h l (by simp))))

theorem noWSEnds_appText {t l : Str} (hl : noWSEnds l) (hlne : l ≠ [])
    (ht : t = [] ∨ (t ≠ [] ∧ noWSEnds t)) : noWSEnds (appText t l) := by
  rcases ht with h | ⟨htne, htws⟩
  · subst h
    simpa [appText] using hl
  · unfold appText
    rw [if_neg htne]
    constructor
    · exact takeWhile_append_nil htne htws.1
    · rw [List.reverse_append, show (' ' :: l).reverse = l.reverse ++ [' '] from by simp,
          List.append_assoc]
      exact takeWhile_append_nil (by simpa using hlne) hl.2

theorem foldl_appText_textOk {qls : List Str} {t : Str} (h : ∀ l ∈ qls, qlineOk l)
    (ht : t = [] ∨ (t ≠ [] ∧ noWSEnds t)) :
    qls.foldl appText t = [] ∨
      (qls.foldl appText t ≠ [] ∧ noWSEnds (qls.foldl appText t)) := by
  induction qls generalizing t with
  | nil => exact ht
  | cons l ls ih =>
    rw [List.foldl_cons]
    apply ih (fun x hx => h x (by simp [hx]))
    obtain ⟨h1, h2, _, _⟩ := h l (by simp)
    exact Or.inr ⟨appText_ne_nil h1, noWSEnds_appText h2 h1 ht⟩

theorem insertOpt_ne_nil (m : List (Char × Str)) (k : Char) (v : Str) :
    insertOpt m k v ≠ [] := by
  cases m with
  | nil => simp [insertOpt]
  | cons p rest =>
    unfold insertOpt
    split <;> simp

theorem foldl_insertOpt_ne_nil (ps : List (Char × Str)) (m : List (Char × Str))
    (h : m ≠ [] ∨ ps ≠ []) : ps.foldl (fun m p => insertOpt m p.1 p.2) m ≠ [] := by
  induction ps generalizing m with
  | nil =>
    rcases h with h | h
    · exact h
    · simp at h
  | cons p ps ih =>
    rw [List.foldl_cons]
    exact ih _ (Or.inl (insertOpt_ne_nil _ _ _))

theorem insertOpt_of_not_mem {m : List (Char × Str)} {k : Char} (v : Str)
    (h : k ∉ keys m) : insertOpt m k v = m ++ [(k, v)] := by
  induction m with
  | nil => rfl
  | cons p rest ih =>
    have hk : ¬(p.1 = k) := by
      intro he
      exact h (by simp [keys, he])
    unfold insertOpt
    rw [if_neg hk, ih (fun hm => h (by simp [keys] at hm ⊢; exact Or.inr hm))]
    rfl

theorem foldl_insertOpt_nodup (ps : List (Char × Str)) (m : List (Char × Str))
    (hnd : (keys ps).Nodup) (hdis : ∀ k ∈ keys ps, k ∉ keys m) :
    ps.foldl (fun m p => insertOpt m p.1 p.2) m = m ++ ps := by
  induction ps generalizing m with
  | nil => simp
  | cons p ps ih =>
    have hk : keys (p :: ps) = p.1 :: keys ps := rfl
    rw [hk] at hnd
    have hcons := List.nodup_cons.mp hnd
    rw [List.foldl_cons, insertOpt_of_not_mem p.2 (hdis p.1 (by rw [hk]; simp))]
    rw [ih (m ++ [(p.1, p.2)]) hcons.2 ?_]
    · simp
    · intro k hkps
      rw [show keys (m ++ [(p.1, p.2)]) = keys m ++ [p.1] from by simp [keys]]
      intro hmem
      rcases List.mem_append.mp hmem with hm | hm
      · exact hdis k (by rw [hk]; simp [hkps]) hm
      · simp at hm
        subst hm
        exact hcons.1 hkps

theorem assembleOpts_nodup {ps : List (Char × Str)} (hnd : (keys ps).Nodup) :
    assembleOpts ps = ps := by
  unfold assembleOpts
  rw [foldl_insertOpt_nodup ps [] hnd (by simp [keys])]
  rfl

theorem foldl_block (b : Block) (st : ParseState) (hwf : b.wf) (ht : st.text = [])
    (ho : st.opts = []) :
    b.lines.foldl parseStep st =
      ⟨[], [], st.acc ++ (if (keys (assembleOpts b.opts)).contains (upperA b.ans) then
        [b.question] else [])⟩ := by
  obtain ⟨hq1, hq2, ho1, ho2, ha⟩ := hwf
  unfold Block.lines
  rw [List.foldl_append, List.foldl_append, foldl_qlines _ _ hq2,
      foldl_optLines _ _ ho2]
  rw [List.foldl_cons, List.foldl_nil]
  simp only [ht, ho]
  have hT := foldl_appText_textOk hq2 (Or.inl rfl)
  have hTne : b.qlines.foldl appText [] ≠ [] :=
    foldl_appText_ne_nil (fun l hl => (hq2 l hl).1) (Or.inr hq1)
  have hTws : noWSEnds (b.qlines.foldl appText []) := by
    rcases hT with hT | hT
    · exact absurd hT hTne
    · exact hT.2
  rw [parseStep_ansLine _ ha hTws hTne (foldl_insertOpt_ne_nil _ _ (Or.inr ho1))]
  rfl

theorem foldl_blocks (bs : List Block) (st : ParseState)
    (h : ∀ b ∈ bs, b.wf ∧ (keys (assembleOpts b.opts)).contains (upperA b.ans) = true)
    (ht : st.text = []) (ho : st.opts = []) :
    ((bs.map Block.lines).flatten).foldl parseStep st =
      ⟨[], [], st.acc ++ bs.map Block.question⟩ := by
  induction bs generalizing st with
  | nil =>
    cases st
    simp_all
  | cons b bs ih =>
    rw [List.map_cons, List.flatten_cons, List.foldl_append,
        foldl_block b st (h b (by simp)).1 ht ho,
        if_pos (h b (by simp)).2,
        ih _ (fun x hx => h x (by simp [hx])) rfl rfl]
    simp

/-- **C5**: an `ANSWER` line met while the accumulated question text is
empty, or while no option has been accumulated, is discarded and the
scanner state (text, options, collected questions) is unchanged. -/
theorem answer_without_context_no_state_change (st : ParseState) (line : Str) (a : Char)
    (h : matchAnswer (pyStrip line) = some a) (hc : st.text = [] ∨ st.opts = []) :
    parseStep st line = st := by
  have hne : pyStrip line ≠ [] := by
    intro he
    have hnone : matchAnswer ([] : Str) = none := by decide
    rw [he, hnone] at h
    exact Option.noConfusion h
  simp only [parseStep, h]
  rw [if_neg hne]
  rcases hc with hc | hc
  · rw [if_pos hc]
  · by_cases ht : st.text = []
    · rw [if_pos ht]
    · rw [if_neg ht, if_pos hc]

/-- Witness for C5: `ANSWER: A` at the very start of a file. -/
theorem answer_without_context_no_state_change_witness :
    parseStep ⟨[], [], []⟩ (S "ANSWER: A") = ⟨[], [], []⟩ :=
  answer_without_context_no_state_change ⟨[], [], []⟩ (S "ANSWER: A") 'A'
    (by decide) (Or.inl rfl)

/-! ## Construction-time validation as the single gate -/

theorem parseStep_acc_valid {st : ParseState} {l : Str}
    (h : ∀ q ∈ st.acc, q.validb = true) :
    ∀ q ∈ (parseStep st l).acc, q.validb = true := by
  simp only [parseStep]
  split
  · exact h
  · split
    · split
      · exact h
      · split
        · exact h
        · split
          · rename_i q hq
            intro x hx
            simp only [List.mem_append, List.mem_singleton] at hx
            rcases hx with hx | hx
            · exact h x hx
            · subst hx
              exact (mkQuestion_some hq).2
          · exact h
    · split
      · exact h
      · split
        · exact h
        · exact h

/-- **C6**: a question record is never in an invalid state — construction
(`mkQuestion`, modelling `Question.__post_init__`) only succeeds on valid
records, and it is the single gate: every record the parser ever emits is
valid (the embedding has no mutation, mirroring that the program never
reassigns a `Question` field after construction). -/
theorem question_invariant_gate :
    (∀ (t : Str) (o : List (Char × Str)) (a : Char) (q : Question),
        mkQuestion t o a = some q → q.validb = true) ∧
    (∀ (lines : List Str), ∀ q ∈ parseLines lines, q.validb = true) := by
  constructor
  · intro t o a q hq
    exact (mkQuestion_some hq).2
  · intro lines
    unfold parseLines
    have key : ∀ (st : ParseState), (∀ q ∈ st.acc, q.validb = true) →
        ∀ q ∈ (lines.foldl parseStep st).acc, q.validb = true := by
      induction lines with
      | nil => intro st h; exact h
      | cons l ls ih =>
        intro st h
        rw [List.foldl_cons]
        exact ih _ (parseStep_acc_valid h)
    exact key initState (by simp [initState])

/-- Witness for C6 on a concrete parsed file. -/
theorem question_invariant_gate_witness :
    ({ text := S "Q", options := [('A', S "x")], answer := 'A' } : Question).validb
      = true :=
  question_invariant_gate.2 [S "Q", S "A) x", S "ANSWER: A"] _ (by decide)

/-! ## Option values are never empty -/

theorem insertOpt_forall {P : Char × Str → Prop} {m : List (Char × Str)} {k : Char}
    {v : Str} (hm : ∀ p ∈ m, P p) (hv : P (k, v)) : ∀ p ∈ insertOpt m k v, P p := by
  induction m with
  | nil =>
    intro p hp
    simp only [insertOpt, List.mem_singleton] at hp
    subst hp
    exact hv
  | cons p0 rest ih =>
    obtain ⟨k0, v0⟩ := p0
    intro p hp
    unfold insertOpt at hp
    split at hp
    · rcases List.mem_cons.mp hp with hp | hp
      · subst hp; exact hv
      · exact hm p (List.mem_cons_of_mem _ hp)
    · rcases List.mem_cons.mp hp with hp | hp
      · subst hp; exact hm (k0, v0) (by simp)
      · exact ih (fun x hx => hm x (List.mem_cons_of_mem _ hx)) p hp

theorem parseStep_opts_inv {st : ParseState} {l : Str}
    (h1 : ∀ p ∈ st.opts, p.2 ≠ []) (h2 : ∀ q ∈ st.acc, ∀ p ∈ q.options, p.2 ≠ []) :
    (∀ p ∈ (parseStep st l).opts, p.2 ≠ []) ∧
      (∀ q ∈ (parseStep st l).acc, ∀ p ∈ q.options, p.2 ≠ []) := by
  simp only [parseStep]
  split
  · exact ⟨h1, h2⟩
  · split
    · split
      · exact ⟨h1, h2⟩
      · split
        · exact ⟨h1, h2⟩
        · split
          · rename_i q hq
            refine ⟨by simp, ?_⟩
            intro x hx
            simp only [List.mem_append, List.mem_singleton] at hx
            rcases hx with hx | hx
            · exact h2 x hx
            · subst hx
              obtain ⟨he, _⟩ := mkQuestion_some hq
              subst he
              exact h1
          · exact ⟨by simp, h2⟩
    · split
      · rename_i l0 t0 hm
        exact ⟨insertOpt_forall h1 (matchOption_some_ne_nil hm), h2⟩
      · split
        · exact ⟨h1, h2⟩
        · exact ⟨h1, h2⟩

/-- **C10**: every option value of every parsed record is a non-empty
string (the option regex requires at least one character of text after
the delimiter and whitespace), and a bare `A)` line is appended to the
accumulated question text instead of being recorded as an option. -/
theorem parser_option_values_nonempty :
    (∀ (lines : List Str), ∀ q ∈ parseLines lines, ∀ p ∈ q.options, p.2 ≠ []) ∧
    parseStep ⟨S "Q", [], []⟩ (S "A)") = ⟨S "Q" ++ ' ' :: S "A)", [], []⟩ := by
  constructor
  · intro lines
    unfold parseLines
    have key : ∀ (st : ParseState), (∀ p ∈ st.opts, p.2 ≠ []) →
        (∀ q ∈ st.acc, ∀ p ∈ q.options, p.2 ≠ []) →
        ∀ q ∈ (lines.foldl parseStep st).acc, ∀ p ∈ q.options, p.2 ≠ [] := by
      induction lines with
      | nil => intro st _ h2; exact h2
      | cons l ls ih =>
        intro st h1 h2
        rw [List.foldl_cons]
        obtain ⟨g1, g2⟩ := parseStep_opts_inv h1 h2
        exact ih _ g1 g2
    exact key initState (by simp [initState]) (by simp [initState])
  · decide

/-- Witness for C10 on a concrete parsed file. -/
theorem parser_option_values_nonempty_witness : (S "x" : Str) ≠ [] :=
  parser_option_values_nonempty.1 [S "Q", S "A) x", S "ANSWER: A"]
    ⟨S "Q", [('A', S "x")], 'A'⟩ (by decide) ('A', S "x") (by decide)

/-! ## File-level error contract -/

/-- **C7**: `parse_file` fails with `FileNotFoundError` exactly when the
source path does not exist; on a `UnicodeDecodeError` it falls back to a
latin-1 read, raising `ValueError` only when that fallback itself fails;
whenever either decode succeeds, no decode error is raised. -/
theorem parse_file_error_contract (ex : Bool) (u : Option (List Str))
    (l : Except Str (List Str)) :
    (ex = false → parse_file ex u l = .error .fileNotFound) ∧
    (∀ lines, ex = true → u = some lines →
      parse_file ex u l = .ok (parseLines lines)) ∧
    (∀ lines, ex = true → u = none → l = .ok lines →
      parse_file ex u l = .ok (parseLines lines)) ∧
    (∀ msg, ex = true → u = none → l = .error msg →
      parse_file ex u l = .error (.valueError msg)) := by
  refine ⟨?_, ?_, ?_, ?_⟩ <;> intros <;> subst_vars <;> rfl

/-- Witness for C7 at concrete arguments covering all four branches. -/
theorem parse_file_error_contract_witness :
    parse_file false none (.ok []) = .error .fileNotFound ∧
    parse_file true (some [S "Q", S "A) x", S "ANSWER: A"]) (.ok []) =
      .ok (parseLines [S "Q", S "A) x", S "ANSWER: A"]) ∧
    parse_file true none (.ok [S "Q"]) = .ok (parseLines [S "Q"]) ∧
    parse_file true none (.error (S "boom")) = .error (.valueError (S "boom")) :=
  ⟨(parse_file_error_contract false none (.ok [])).1 rfl,
   (parse_file_error_contract true (some [S "Q", S "A) x", S "ANSWER: A"])
      (.ok [])).2.1 _ rfl rfl,
   (parse_file_error_contract true none (.ok [S "Q"])).2.2.1 _ rfl rfl rfl,
   (parse_file_error_contract true none (.error (S "boom"))).2.2.2 _ rfl rfl rfl⟩

/-! ## `_safe_title` -/

/-- **C8**: `_safe_title` removes every `<`, `>`, `&`, `"` from the text;
when the stripped result exceeds the maximum length it is truncated to
that length and `...` is appended; when the stripped result is empty the
fixed placeholder is returned. -/
theorem safe_title_spec (text : Str) (m : Nat) :
    (∀ c ∈ safe_title text m, c ≠ '<' ∧ c ≠ '>' ∧ c ≠ '&' ∧ c ≠ '"') ∧
    (m < (text.filter fun c => !(c = '<' || c = '>' || c = '&' || c = '"')).length →
      safe_title text m =
        (text.filter fun c => !(c = '<' || c = '>' || c = '&' || c = '"')).take m
          ++ S "...") ∧
    ((text.filter fun c => !(c = '<' || c = '>' || c = '&' || c = '"')).length ≤ m ∧
        (text.filter fun c => !(c = '<' || c = '>' || c = '&' || c = '"')) ≠ [] →
      safe_title text m =
        text.filter fun c => !(c = '<' || c = '>' || c = '&' || c = '"')) ∧
    ((text.filter fun c => !(c = '<' || c = '>' || c = '&' || c = '"')) = [] →
      safe_title text m = S "Pregunta sin título") := by
  have hF : ∀ c ∈ text.filter fun c => !(c = '<' || c = '>' || c = '&' || c = '"'),
      c ≠ '<' ∧ c ≠ '>' ∧ c ≠ '&' ∧ c ≠ '"' := by
    intro c hc
    have hflt := (List.mem_filter.mp hc).2
    simp only [Bool.not_eq_true', Bool.or_eq_false_iff, decide_eq_false_iff_not] at hflt
    exact ⟨hflt.1.1.1, hflt.1.1.2, hflt.1.2, hflt.2⟩
  have hdots : ∀ c ∈ S "...", c ≠ '<' ∧ c ≠ '>' ∧ c ≠ '&' ∧ c ≠ '"' := by decide
  have hph : ∀ c ∈ S "Pregunta sin título", c ≠ '<' ∧ c ≠ '>' ∧ c ≠ '&' ∧ c ≠ '"' := by
    decide
  refine ⟨?_, ?_, ?_, ?_⟩
  · intro c hc
    simp only [safe_title] at hc
    split at hc
    · split at hc
      · exact hph c hc
      · rcases List.mem_append.mp hc with hc | hc
        · exact hF c (List.take_subset _ _ hc)
        · exact hdots c hc
    · split at hc
      · exact hph c hc
      · exact hF c hc
  · intro h
    simp only [safe_title]
    rw [if_pos h, if_neg]
    intro he
    rcases List.append_eq_nil.mp he with ⟨-, h2⟩
    simp [S] at h2
  · rintro ⟨h1, h2⟩
    simp only [safe_title]
    rw [if_neg (not_lt.mpr h1), if_neg h2]
  · intro h
    simp only [safe_title]
    rw [h]
    simp

/-- Witness for C8: truncation-free stripping and the empty fallback. -/
theorem safe_title_spec_witness :
    safe_title (S "a<b") 50 = S "ab" ∧
    safe_title (S "<") 50 = S "Pregunta sin título" :=
  ⟨(safe_title_spec (S "a<b") 50).2.2.1 ⟨by decide, by decide⟩,
   (safe_title_spec (S "<") 50).2.2.2 (by decide)⟩

/-! ## Escaping produces well-formed fragments -/

theorem wf_escText {s : Str} (h : ∀ c ∈ s, okChar c = true) {t : Str}
    (ht : Wf false t) : Wf false (escText s ++ t) := by
  induction s with
  | nil => simpa [escText]
  | cons c cs ih =>
    have hc := h c (by simp)
    have hcs : ∀ x ∈ cs, okChar x = true := fun x hx => h x (by simp [hx])
    have htail : Wf false (escText cs ++ t) := ih hcs
    rw [show escText (c :: cs) = escTextChar c ++ escText cs from by
      simp [escText], List.append_assoc]
    by_cases h1 : c = '&'
    · subst h1
      exact Wf.cent _ _ (by simp [xmlEntities, escTextChar, S]) htail
    · by_cases h2 : c = '<'
      · subst h2
        exact Wf.cent _ _ (by simp [xmlEntities, escTextChar, S]) htail
      · by_cases h3 : c = '>'
        · subst h3
          exact Wf.cent _ _ (by simp [xmlEntities, escTextChar, S]) htail
        · rw [show escTextChar c = [c] from by simp [escTextChar, h1, h2, h3]]
          exact Wf.cchr c _ (by simp [textSafeChar, hc, h1, h2, h3]) htail

theorem wfAttrVal_escAttr {s : Str} (h : ∀ c ∈ s, okChar c = true) :
    WfAttrVal (escAttr s) := by
  induction s with
  | nil => exact WfAttrVal.nil
  | cons c cs ih =>
    have hc := h c (by simp)
    have htail : WfAttrVal (escAttr cs) := ih (fun x hx => h x (by simp [hx]))
    rw [show escAttr (c :: cs) = escAttrChar c ++ escAttr cs from by simp [escAttr]]
    by_cases h1 : c = '&'
    · subst h1; exact WfAttrVal.ent _ _ (by simp [xmlEntities, escAttrChar, S]) htail
    · by_cases h2 : c = '<'
      · subst h2; exact WfAttrVal.ent _ _ (by simp [xmlEntities, escAttrChar, S]) htail
      · by_cases h3 : c = '>'
        · subst h3; exact WfAttrVal.ent _ _ (by simp [xmlEntities, escAttrChar, S]) htail
        · by_cases h4 : c = '"'
          · subst h4
            exact WfAttrVal.ent _ _ (by simp [xmlEntities, escAttrChar, S]) htail
          · by_cases h5 : c = '\t'
            · subst h5
              exact WfAttrVal.ent _ _ (by simp [xmlEntities, escAttrChar, S]) htail
            · by_cases h6 : c = '\n'
              · subst h6
                exact WfAttrVal.ent _ _ (by simp [xmlEntities, escAttrChar, S]) htail
              · by_cases h7 : c = '\r'
                · subst h7
                  exact WfAttrVal.ent _ _ (by simp [xmlEntities, escAttrChar, S]) htail
                · rw [show escAttrChar c = [c] from by
                    simp [escAttrChar, h1, h2, h3, h4, h5, h6, h7]]
                  exact WfAttrVal.chr c _
                    (by simp [attrSafeChar, hc, h1, h2, h3, h4]) htail

theorem wfAttrList_serializeAttrs {attrs : List (Str × Str)}
    (h : ∀ p ∈ attrs, wfName p.1 = true ∧ ∀ c ∈ p.2, okChar c = true) :
    WfAttrList (serializeAttrs attrs) := by
  induction attrs with
  | nil => exact WfAttrList.nil
  | cons p rest ih =>
    obtain ⟨hn, hv⟩ := h p (by simp)
    have htail : WfAttrList (serializeAttrs rest) :=
      ih (fun x hx => h x (by simp [hx]))
    rw [show serializeAttrs (p :: rest) = serializeAttr p ++ serializeAttrs rest from by
      simp [serializeAttrs]]
    have := WfAttrList.cons p.1 (escAttr p.2) (serializeAttrs rest) hn
      (wfAttrVal_escAttr hv) htail
    simpa [serializeAttr, List.append_assoc] using this

/-! ## Serialization of a good tree is well-formed -/

mutual
theorem serializeElem_wf (tag : Str) (attrs : List (Str × Str)) (kids : Kids)
    (h : goodXml (.elem tag attrs kids) = true) :
    Wf true (serializeXml (.elem tag attrs kids)) := by
  have hparts : wfName tag = true ∧
      (attrs.all fun p => wfName p.1 && p.2.all okChar) = true ∧
      goodKids kids = true := by
    simp only [goodXml, Bool.and_eq_true] at h
    exact ⟨h.1.1.1, h.1.1.2, h.2⟩
  have hattrs : WfAttrList (serializeAttrs attrs) := by
    apply wfAttrList_serializeAttrs
    intro p hp
    have := (List.all_eq_true.mp hparts.2.1) p hp
    simp only [Bool.and_eq_true, List.all_eq_true] at this
    exact this
  have hbody : Wf false (serializeKids kids) := serializeKids_wf kids hparts.2.2
  cases kids with
  | nil =>
    have := Wf.selfc tag (serializeAttrs attrs) hparts.1 hattrs
    simpa [serializeXml, List.append_assoc] using this
  | cons x xs =>
    have := Wf.elem tag (serializeAttrs attrs) (serializeKids (.cons x xs))
      hparts.1 hattrs hbody
    simpa [serializeXml, List.append_assoc] using this

theorem serializeKids_wf (k : Kids) (h : goodKids k = true) :
    Wf false (serializeKids k) := by
  cases k with
  | nil => exact Wf.cnil
  | cons x xs =>
    have hx : goodXml x = true := by
      simp only [goodKids, Bool.and_eq_true] at h
      exact h.1
    have hxs : Wf false (serializeKids xs) := by
      apply serializeKids_wf
      simp only [goodKids, Bool.and_eq_true] at h
      exact h.2
    rw [show serializeKids (.cons x xs) = serializeXml x ++ serializeKids xs from rfl]
    cases x with
    | text s =>
      have hs : ∀ c ∈ s, okChar c = true := by
        simp only [goodXml, List.all_eq_true] at hx
        exact hx
      exact wf_escText hs hxs
    | elem t a kk =>
      exact Wf.celem _ _ (serializeElem_wf t a kk hx) hxs
end

/-! ## Goodness of the generated item tree -/

theorem goodKids_K (xs : List Xml) : goodKids (K xs) = xs.all goodXml := by
  induction xs with
  | nil => rfl
  | cons x xs ih => simp [K, goodKids, ih]

theorem mem_insertSorted {a c : Char} {l : List Char} :
    a ∈ insertSorted c l ↔ a = c ∨ a ∈ l := by
  induction l with
  | nil => simp [insertSorted]
  | cons d ds ih =>
    unfold insertSorted
    split
    · simp
    · simp only [List.mem_cons, ih]
      tauto

theorem mem_sortChars {a : Char} {l : List Char} : a ∈ sortChars l ↔ a ∈ l := by
  induction l with
  | nil => simp [sortChars]
  | cons c cs ih =>
    show a ∈ insertSorted c (sortChars cs) ↔ _
    rw [mem_insertSorted, ih]
    simp

theorem lookup_mem {m : List (Char × Str)} {k : Char} (h : k ∈ keys m) :
    ∃ t, List.lookup k m = some t ∧ (k, t) ∈ m := by
  induction m with
  | nil => simp [keys] at h
  | cons p rest ih =>
    obtain ⟨k0, v0⟩ := p
    by_cases he : k = k0
    · subst he
      exact ⟨v0, by simp [List.lookup], by simp⟩
    · have hk : k ∈ keys rest := by
        simp [keys] at h ⊢
        tauto
      obtain ⟨t, h1, h2⟩ := ih hk
      refine ⟨t, ?_, by simp [h2]⟩
      have hbe : (k == k0) = false := beq_eq_false_iff_ne.mpr he
      simp [List.lookup, hbe, h1]

theorem safe_title_okChar {t : Str} {m : Nat} (h : ∀ c ∈ t, okChar c = true) :
    ∀ c ∈ safe_title t m, okChar c = true := by
  have hph : ∀ c ∈ S "Pregunta sin título", okChar c = true := by decide
  have hdots : ∀ c ∈ S "...", okChar c = true := by decide
  intro c hc
  simp only [safe_title] at hc
  split at hc
  · split at hc
    · exact hph c hc
    · rcases List.mem_append.mp hc with hc | hc
      · exact h c (List.mem_of_mem_filter (List.take_subset _ _ hc))
      · exact hdots c hc
  · split at hc
    · exact hph c hc
    · exact h c (List.mem_of_mem_filter hc)

/-! ## The grammar admits only XML-valid characters -/

theorem okChar_of_bounds {c : Char} (h1 : 32 ≤ c.toNat) (h2 : c.toNat ≤ 255) :
    okChar c = true := by
  unfold okChar
  simp only [Bool.and_eq_true, Bool.or_eq_true, decide_eq_true_eq]
  refine ⟨⟨Or.inr h1, ?_⟩, ?_⟩
  · intro he
    have hx : c.toNat = 65534 := by
      show c.val.toNat = 65534
      rw [he]
      rfl
    omega
  · intro he
    have hx : c.toNat = 65535 := by
      show c.val.toNat = 65535
      rw [he]
      rfl
    omega

theorem nameChar_ok {c : Char} (h : nameChar c = true) : okChar c = true := by
  unfold nameChar nameStartChar at h
  simp only [Bool.or_eq_true, decide_eq_true_eq] at h
  rcases h with ((((h | h) | h) | h) | h) | h
  · unfold Char.isAlpha Char.isUpper Char.isLower at h
    simp only [Bool.or_eq_true, Bool.and_eq_true, decide_eq_true_eq] at h
    rcases h with ⟨h1, h2⟩ | ⟨h1, h2⟩
    · have h1n : 65 ≤ c.toNat := h1
      have h2n : c.toNat ≤ 90 := h2
      exact okChar_of_bounds (by omega) (by omega)
    · have h1n : 97 ≤ c.toNat := h1
      have h2n : c.toNat ≤ 122 := h2
      exact okChar_of_bounds (by omega) (by omega)
  · subst h; decide
  · subst h; decide
  · unfold Char.isDigit at h
    simp only [Bool.and_eq_true, decide_eq_true_eq] at h
    have h1n : 48 ≤ c.toNat := h.1
    have h2n : c.toNat ≤ 57 := h.2
    exact okChar_of_bounds (by omega) (by omega)
  · subst h; decide
  · subst h; decide

theorem wfName_ok {s : Str} (h : wfName s = true) : ∀ c ∈ s, okChar c = true := by
  match s with
  | [] => simp [wfName] at h
  | c0 :: rest =>
    simp only [wfName, Bool.and_eq_true] at h
    intro c hc
    rcases List.mem_cons.mp hc with hc | hc
    · subst hc
      exact nameChar_ok (by unfold nameChar; simp [h.1])
    · exact nameChar_ok ((List.all_eq_true.mp h.2) c hc)

theorem entities_ok : ∀ e ∈ xmlEntities, ∀ c ∈ e, okChar c = true := by decide

theorem wfAttrVal_ok {s : Str} (h : WfAttrVal s) : ∀ c ∈ s, okChar c = true := by
  induction h with
  | nil => simp
  | chr c rest hc _ ih =>
    intro x hx
    rcases List.mem_cons.mp hx with hx | hx
    · subst hx
      unfold attrSafeChar at hc
      simp only [Bool.and_eq_true] at hc
      exact hc.1
    · exact ih x hx
  | ent e rest he _ ih =>
    intro x hx
    rcases List.mem_append.mp hx with hx | hx
    · exact entities_ok e he x hx
    · exact ih x hx

theorem wfAttrList_ok {s : Str} (h : WfAttrList s) : ∀ c ∈ s, okChar c = true := by
  induction h with
  | nil => simp
  | cons n v rest hn hv hrest ihv =>
    intro x hx
    simp only [List.mem_cons, List.mem_append] at hx
    casesm* _ ∨ _
    all_goals first
      | (subst_vars; decide)
      | exact wfName_ok hn x ‹_›
      | exact wfAttrVal_ok hv x ‹_›
      | exact ihv x ‹_›

theorem wf_ok {b : Bool} {s : Str} (h : Wf b s) : ∀ c ∈ s, okChar c = true := by
  induction h with
  | cnil => simp
  | celem s t _ _ ih1 ih2 =>
    intro x hx
    rcases List.mem_append.mp hx with hx | hx
    · exact ih1 x hx
    · exact ih2 x hx
  | cchr c t hc _ ih =>
    intro x hx
    rcases List.mem_cons.mp hx with hx | hx
    · subst hx
      unfold textSafeChar at hc
      simp only [Bool.and_eq_true] at hc
      exact hc.1
    · exact ih x hx
  | cent e t he _ ih =>
    intro x hx
    rcases List.mem_append.mp hx with hx | hx
    · exact entities_ok e he x hx
    · exact ih x hx
  | elem tag attrs body htag hattrs _ ih =>
    intro x hx
    simp only [List.mem_cons, List.mem_append] at hx
    casesm* _ ∨ _
    all_goals first
      | (subst_vars; decide)
      | exact wfName_ok htag x ‹_›
      | exact wfAttrList_ok hattrs x ‹_›
      | exact ih x ‹_›
      | simp_all
  | selfc tag attrs htag hattrs =>
    intro x hx
    simp only [List.mem_cons, List.mem_append] at hx
    casesm* _ ∨ _
    all_goals first
      | (subst_vars; decide)
      | exact wfName_ok htag x ‹_›
      | exact wfAttrList_ok hattrs x ‹_›
      | simp_all

theorem goodXml_item (q : Question) (itemId : Str) (choiceHex : Char → Str)
    (htext : ∀ c ∈ q.text, okChar c = true)
    (hkeys : ∀ l ∈ keys q.options, okChar l = true)
    (hopts : ∀ p ∈ q.options, ∀ c ∈ p.2, okChar c = true)
    (hid : ∀ c ∈ itemId, okChar c = true)
    (hhex : ∀ l ∈ keys q.options, ∀ c ∈ choiceHex l, okChar c = true) :
    goodXml (generate_item_xml q itemId choiceHex) = true := by
  have hOptId : ∀ l ∈ keys q.options, ∀ c ∈ optionId choiceHex l, okChar c = true := by
    intro l hl c hc
    simp only [optionId] at hc
    rcases List.mem_append.mp hc with hc | hc
    · exact (by decide : ∀ c ∈ S "Choice_", okChar c = true) c hc
    · rcases List.mem_cons.mp hc with he | hc
      · rw [he]; exact hkeys l hl
      · rcases List.mem_cons.mp hc with he | hc
        · rw [he]; decide
        · exact hhex l hl c hc
  have hLookup : ∀ l ∈ keys q.options, ∀ c ∈ lookupD q.options l, okChar c = true := by
    intro l hl c hc
    obtain ⟨t, hfind, hmem⟩ := lookup_mem hl
    rw [lookupD, hfind] at hc
    exact hopts (l, t) hmem c hc
  have hTitle : (safe_title q.text 50).all okChar = true :=
    List.all_eq_true.mpr (safe_title_okChar htext)
  have hId : itemId.all okChar = true := List.all_eq_true.mpr hid
  have hText : q.text.all okChar = true := List.all_eq_true.mpr htext
  have hChoices : ∀ x ∈ (sortChars (keys q.options)).map (fun l =>
      Xml.elem (S "simpleChoice") [(S "identifier", optionId choiceHex l)]
        (K [Xml.text (lookupD q.options l)])), goodXml x = true := by
    intro x hx
    rcases List.mem_map.mp hx with ⟨l, hl, rfl⟩
    have hlk : l ∈ keys q.options := mem_sortChars.mp hl
    simp only [goodXml, goodKids, K, namesDistinct, List.all_cons, List.all_nil,
      List.map_cons, List.map_nil, Bool.and_eq_true]
    repeat' apply And.intro
    all_goals first
      | decide
      | trivial
      | exact List.all_eq_true.mpr (hOptId l hlk)
      | exact List.all_eq_true.mpr (hLookup l hlk)
  have hCR : ∀ x ∈ (if (keys q.options).contains q.answer then
      [Xml.elem (S "value") [] (K [Xml.text (optionId choiceHex q.answer)])]
      else ([] : List Xml)), goodXml x = true := by
    intro x hx
    split at hx
    · rename_i hcont
      rcases List.mem_singleton.mp hx with rfl
      have hans : q.answer ∈ keys q.options := List.mem_of_elem_eq_true hcont
      simp only [goodXml, goodKids, K, namesDistinct, List.all_cons, List.all_nil,
        List.map_nil, Bool.and_eq_true]
      repeat' apply And.intro
      all_goals first
        | decide
        | trivial
        | exact List.all_eq_true.mpr (hOptId q.answer hans)
    · simp at hx
  simp only [generate_item_xml, goodXml, goodKids_K, List.all_cons, List.all_nil,
    namesDistinct, List.map_cons, List.map_nil, Bool.and_eq_true]
  repeat' apply And.intro
  all_goals first
    | decide
    | trivial
    | exact hId
    | exact hTitle
    | exact hText
    | exact List.all_eq_true.mpr hCR
    | exact List.all_eq_true.mpr hChoices

theorem correctResponseValue_item (q : Question) (itemId : Str)
    (choiceHex : Char → Str) (hans : (keys q.options).contains q.answer = true) :
    correctResponseValue (generate_item_xml q itemId choiceHex) =
      some (optionId choiceHex q.answer) := by
  simp only [generate_item_xml, correctResponseValue, Xml.child, K, Kids.findTag,
    Xml.textContent, hans, if_true, Option.some_bind]

/-- **C3 (amended)**: for a valid question record whose characters are all
XML-valid (`okChar`: no control characters besides tab/LF/CR, no
`U+FFFE`/`U+FFFF` — `uuid4().hex`-derived identifiers always are),
`generate_item_xml` serializes to a well-formed XML element, so the
`minidom.parseString` round-trip succeeds, and the `correctResponse`
value is exactly the synthetic identifier assigned to the option matching
`answer`. -/
theorem render_item_wf_and_linked (q : Question) (itemId : Str)
    (choiceHex : Char → Str) (hv : q.validb = true)
    (htext : ∀ c ∈ q.text, okChar c = true)
    (hkeys : ∀ l ∈ keys q.options, okChar l = true)
    (hopts : ∀ p ∈ q.options, ∀ c ∈ p.2, okChar c = true)
    (hid : ∀ c ∈ itemId, okChar c = true)
    (hhex : ∀ l ∈ keys q.options, ∀ c ∈ choiceHex l, okChar c = true) :
    wellFormedXml (serializeXml (generate_item_xml q itemId choiceHex)) ∧
    correctResponseValue (generate_item_xml q itemId choiceHex) =
      some (optionId choiceHex q.answer) := by
  have hans : (keys q.options).contains q.answer = true := by
    unfold Question.validb at hv
    simp only [Bool.and_eq_true] at hv
    exact hv.2
  constructor
  · unfold wellFormedXml
    have hg := goodXml_item q itemId choiceHex htext hkeys hopts hid hhex
    unfold generate_item_xml at hg ⊢
    exact serializeElem_wf _ _ _ hg
  · exact correctResponseValue_item q itemId choiceHex hans

/-- Witness for C3 (amended) at a concrete record and identifier streams. -/
theorem render_item_wf_and_linked_witness :
    wellFormedXml (serializeXml (generate_item_xml
      ⟨S "Q?", [('A', S "x"), ('B', S "y")], 'B'⟩ (S "ITEM_0af1")
      (fun _ => S "ab12cd34"))) ∧
    correctResponseValue (generate_item_xml
      ⟨S "Q?", [('A', S "x"), ('B', S "y")], 'B'⟩ (S "ITEM_0af1")
      (fun _ => S "ab12cd34")) =
      some (optionId (fun _ => S "ab12cd34") 'B') :=
  render_item_wf_and_linked ⟨S "Q?", [('A', S "x"), ('B', S "y")], 'B'⟩
    (S "ITEM_0af1") (fun _ => S "ab12cd34") (by decide) (by decide) (by decide)
    (by decide) (by decide) (by decide)

/-- **C3 is false as stated**: the claim quantifies over *every* valid
`QuestionRecord`, but a record whose text contains a control character
(here `U+0000`) is valid for `__post_init__` while `ET.tostring` writes
the character raw, producing a string that is not well-formed XML — the
`minidom.parseString` round-trip inside `generate_item_xml` fails.  The
serialized output provably lies outside the well-formed grammar. -/
theorem render_roundtrip_counterexample :
    Question.validb ⟨S "Q\x00", [('A', S "x")], 'A'⟩ = true ∧
    ¬ wellFormedXml (serializeXml (generate_item_xml
      ⟨S "Q\x00", [('A', S "x")], 'A'⟩ (S "item0") (fun _ => S "ab12cd34"))) := by
  refine ⟨by decide, ?_⟩
  intro hwf
  have hok := wf_ok hwf '\x00' (by decide)
  exact absurd hok (by decide)

/-! ## The package archive -/

theorem toList_K (xs : List Xml) : (K xs).toList = xs := by
  induction xs with
  | nil => rfl
  | cons x xs ih => simp [K, Kids.toList, ih]

theorem manifestHrefs_generate (rs : List (Str × Str)) (mhex : Str) :
    manifestResourceHrefs (generate_manifest rs mhex) = rs.map Prod.snd := by
  have hchild : Xml.child (generate_manifest rs mhex) (S "resources") =
      some (Xml.elem (S "resources") []
        (K (rs.map fun p =>
          Xml.elem (S "resource")
            [(S "identifier", S "RES-" ++ p.1),
             (S "type", S "imsqti_item_xmlv2p1"),
             (S "href", p.2)]
            (K [Xml.elem (S "file") [(S "href", p.2)] (K [])])))) := by
    simp only [generate_manifest, Xml.child, K, Kids.findTag]
    rw [if_pos trivial, if_neg (by decide), if_neg (by decide)]
  simp only [manifestResourceHrefs, hchild, toList_K]
  clear hchild
  induction rs with
  | nil => rfl
  | cons r rs ih =>
    simp only [List.map_cons, List.filterMap_cons]
    rw [if_pos trivial]
    simp only [List.lookup]
    rw [show ((S "href" == S "identifier") : Bool) = false from by decide,
        show ((S "href" == S "type") : Bool) = false from by decide,
        show ((S "href" == S "href") : Bool) = true from by decide]
    simp only [cond_false, cond_true]
    rw [ih]

/-- **C2**: building a package from `M` records yields exactly `M`
question files plus one manifest; the `i`-th question file (0-based, in
input order) is named `question_NNN_ITEM_<hex>.xml` with `NNN` the 3-digit
zero-padded index starting at `001`, and the manifest's resource entries
list exactly the question file names, byte-for-byte, in the same order. -/
theorem build_package_spec (qs : List Question) (uuidHex : Nat → Str)
    (choiceHex : Nat → Char → Str) (manifestHex : Str) :
    (build_package qs uuidHex choiceHex manifestHex).length = qs.length + 1 ∧
    (∀ i, i < qs.length →
      ((build_package qs uuidHex choiceHex manifestHex)[i]?).map Prod.fst =
        some (S "question_" ++ pad3 (i + 1) ++ S "_ITEM_" ++ uuidHex i ++ S ".xml")) ∧
    (∃ mx, (build_package qs uuidHex choiceHex manifestHex).getLast? =
        some (S "imsmanifest.xml", mx) ∧
      manifestResourceHrefs mx =
        ((build_package qs uuidHex choiceHex manifestHex).take qs.length).map
          Prod.fst) := by
  refine ⟨?_, ?_, ?_⟩
  · simp [build_package, List.enum_length]
  · intro i hi
    have hlen : i < (qs.enum.map fun p =>
        (questionFileName uuidHex p.1,
         generate_item_xml p.2 (itemIdOf uuidHex p.1) (choiceHex p.1))).length := by
      simpa [List.enum_length] using hi
    rw [build_package, List.getElem?_append, if_pos hlen, List.getElem?_map,
        List.getElem?_enum, List.getElem?_eq_getElem hi]
    rw [show S "_ITEM_" = '_' :: S "ITEM_" from rfl]
    simp [questionFileName, itemIdOf, List.append_assoc]
  · refine ⟨generate_manifest (buildResources qs.length uuidHex) manifestHex, ?_, ?_⟩
    · rw [build_package, List.getLast?_concat]
    · rw [manifestHrefs_generate, build_package, List.take_left']
      · simp only [buildResources, List.map_map]
        rw [← List.enum_map_fst qs, List.map_map]
        simp [Function.comp]
      · simp [List.enum_length]

/-- Witness for C2 on a two-question package. -/
theorem build_package_spec_witness :
    ((build_package
        [⟨S "Q1", [('A', S "x")], 'A'⟩, ⟨S "Q2", [('B', S "y")], 'B'⟩]
        (fun i => S (toString i)) (fun _ _ => S "ab12cd34") (S "mh"))[0]?).map
      Prod.fst = some (S "question_" ++ pad3 1 ++ S "_ITEM_" ++ S "0" ++ S ".xml") :=
  (build_package_spec
    [⟨S "Q1", [('A', S "x")], 'A'⟩, ⟨S "Q2", [('B', S "y")], 'B'⟩]
    (fun i => S (toString i)) (fun _ _ => S "ab12cd34") (S "mh")).2.1 0 (by decide)

end Aiken2QTI
